import Mathlib

/-!
Verification of the single-source shortest-path core (Dijkstra's algorithm
over an adjacency matrix, with a lazy-deletion binary heap modelled as a
sorted list, predecessor tracking and path reconstruction), embedded from
`dijkstra_notebook.py`.

Conventions of the embedding:
* the adjacency matrix is a `List (List Nat)`; entry `0` means "no edge"
  (mirroring `distance(matrix, i, j)` in the source, which returns `None`
  for a zero entry);
* the infinite sentinel `float("inf")` of a distance-vector cell is
  `none : Option Nat`;
* the `heapq` priority queue of `(distance, vertex)` pairs is modelled as a
  list kept sorted by the lexicographic order on pairs, so that popping the
  head yields the minimum entry exactly as `heapq.heappop` does;
* the unbounded `while heap:` loop is given explicit fuel; termination is
  proved by exhibiting a sufficient fuel bound.
-/

namespace DijkstraNB

/-- `entry m i j` is the raw adjacency-matrix cell `matrix[i][j]`
(out-of-range access is read as `0`, i.e. "no edge"). -/
def entry (m : List (List Nat)) (i j : Nat) : Nat :=
  (m.getD i []).getD j 0

/-- Embeds `distance(matrix, i, j)` from the source:
`matrix[i][j] if matrix[i][j] != 0 else None`. -/
def distance (m : List (List Nat)) (i j : Nat) : Option Nat :=
  if entry m i j ≠ 0 then some (entry m i j) else none

/-- Embeds `neighbours(matrix, i)` from the source:
`[j for j in range(len(matrix)) if distance(matrix, i, j) is not None]`. -/
def neighbours (m : List (List Nat)) (i : Nat) : List Nat :=
  (List.range m.length).filter fun j => (distance m i j).isSome

/-- Embeds the module-level edge list of the source:
`[(i, j, matrix[i][j]) for i in range(n) for j in range(n) if matrix[i][j] != 0]`. -/
def edges (m : List (List Nat)) : List (Nat × Nat × Nat) :=
  (List.range m.length).flatMap fun i =>
    ((List.range m.length).filter fun j => entry m i j ≠ 0).map fun j => (i, j, entry m i j)

/-- Embeds the module-level initialization of the source:
`distance_vector = [float("inf")] * len(matrix); distance_vector[0] = 0`. -/
def initDV (n : Nat) : List (Option Nat) :=
  (List.replicate n (none : Option Nat)).set 0 (some 0)

/-- `ltD a b` embeds the comparison `alt < distance_vector[v]`, where the
right-hand side may be the infinite sentinel (`none`). -/
def ltD (a : Nat) : Option Nat → Bool
  | none => true
  | some b => decide (a < b)

/-- Lexicographic order on `(distance, vertex)` pairs: the order `heapq`
uses to compare tuples. -/
def entryLE (x y : Nat × Nat) : Prop :=
  x.1 < y.1 ∨ (x.1 = y.1 ∧ x.2 ≤ y.2)

instance : DecidableRel entryLE := fun x y =>
  inferInstanceAs (Decidable (x.1 < y.1 ∨ (x.1 = y.1 ∧ x.2 ≤ y.2)))

instance : IsTotal (Nat × Nat) entryLE :=
  ⟨fun x y => by unfold entryLE; omega⟩

instance : IsTrans (Nat × Nat) entryLE :=
  ⟨fun x y z hxy hyz => by unfold entryLE at *; omega⟩

/-- `heapq.heappush`: modelled as ordered insertion into the sorted list. -/
def heapPush (h : List (Nat × Nat)) (x : Nat × Nat) : List (Nat × Nat) :=
  List.orderedInsert entryLE x h

/-- The run-scoped state of `dijkstra`: the distance vector, the `previous`
(predecessor) table, the `visited` set (as a duplicate-free list) and the
heap (Frontier). -/
structure DState where
  dist : List (Option Nat)
  prev : List (Option Nat)
  visited : List Nat
  heap : List (Nat × Nat)
deriving DecidableEq

/-- The relaxation pass over a neighbour list, embedding the source's
`for v in neighbours(matrix, u): ...` body: skip visited `v`, compute
`alt = current_dist + distance(matrix, u, v)`, and on improvement update
`distance_vector[v]`, `previous[v]` and push `(alt, v)`. -/
def relaxList (m : List (List Nat)) (u du : Nat) : List Nat → DState → DState
  | [], s => s
  | v :: rest, s =>
    if v ∈ s.visited then relaxList m u du rest s
    else
      if ltD (du + entry m u v) (s.dist.getD v none) then
        relaxList m u du rest
          { s with dist := s.dist.set v (some (du + entry m u v)),
                   prev := s.prev.set v (some u),
                   heap := heapPush s.heap (du + entry m u v, v) }
      else relaxList m u du rest s

/-- The main `while heap:` loop with explicit fuel: pop the minimum entry,
discard it if the vertex is already visited (lazy deletion), otherwise mark
the vertex visited and relax its outgoing edges. `none` means the fuel ran
out before the Frontier emptied. -/
def loopFuel (m : List (List Nat)) : Nat → DState → Option DState
  | 0, s => if s.heap.isEmpty then some s else none
  | fuel + 1, s =>
    match s.heap with
    | [] => some s
    | (d, u) :: t =>
      if u ∈ s.visited then loopFuel m fuel { s with heap := t }
      else
        loopFuel m fuel
          (relaxList m u d (neighbours m u) { s with heap := t, visited := u :: s.visited })

/-- Fuel that always suffices for the main loop (proved below). -/
def fuelBound (m : List (List Nat)) : Nat :=
  (m.length + 2) * (m.length + 1) + 1

/-- Embeds `dijkstra(matrix, distance_vector)`: the caller-supplied distance
vector together with a fresh `previous = [None] * len(matrix)`, a fresh empty
visited set and the initial heap `[(0, 0)]` (the source vertex `0` is
hard-coded in the Python), run through the main loop. -/
def dijkstra (m : List (List Nat)) (dv : List (Option Nat)) : Option DState :=
  loopFuel m (fuelBound m)
    { dist := dv, prev := List.replicate m.length none, visited := [], heap := [(0, 0)] }

/-- The value of `current` after `k` iterations of the reconstruction walk
`while current is not None: path.append(current); current = previous[current]`;
`none` means the loop has exited. -/
def walkState (prev : List (Option Nat)) (target : Nat) : Nat → Option Nat
  | 0 => some target
  | k + 1 =>
    match walkState prev target k with
    | none => none
    | some cur => prev.getD cur none

/-- The reconstruction walk run to completion with fuel, returning the path
in forward order (as the source produces after `path.reverse()`); `none`
means the walk did not finish within the fuel. -/
def walkList (prev : List (Option Nat)) : Nat → Nat → Option (List Nat)
  | 0, _ => none
  | fuel + 1, cur =>
    match prev.getD cur none with
    | none => some [cur]
    | some p =>
      match walkList prev fuel p with
      | none => none
      | some l => some (l ++ [cur])

/-- Outcome of per-target path reconstruction (source lines 53-63). -/
inductive RecResult where
  | unreachable : RecResult
  | path : List Nat → RecResult
deriving DecidableEq

/-- Per-target reconstruction: if `distance_vector[target]` is the infinite
sentinel report the vertex unreachable, otherwise run the predecessor walk. -/
def reconstruct (dv prev : List (Option Nat)) (fuel target : Nat) : Option RecResult :=
  if dv.getD target none = none then some RecResult.unreachable
  else
    match walkList prev fuel target with
    | none => none
    | some l => some (RecResult.path l)

/-! ### Specification-side notions: walks, their weights, reachability -/

/-- There is an edge from `a` to `b` exactly when the source's `distance`
lookup succeeds. -/
def EdgeP (m : List (List Nat)) (a b : Nat) : Prop :=
  (distance m a b).isSome = true

instance (m : List (List Nat)) (a b : Nat) : Decidable (EdgeP m a b) :=
  inferInstanceAs (Decidable (_ = true))

/-- A walk is a vertex list whose consecutive vertices are joined by edges. -/
def IsWalk (m : List (List Nat)) (l : List Nat) : Prop :=
  List.Chain' (EdgeP m) l

/-- The summed edge weight along a vertex list. -/
def walkW (m : List (List Nat)) : List Nat → Nat
  | [] => 0
  | [_] => 0
  | a :: b :: t => entry m a b + walkW m (b :: t)

/-- `WalkFromTo m a b l`: `l` is a walk that starts at `a` and ends at `b`. -/
def WalkFromTo (m : List (List Nat)) (a b : Nat) (l : List Nat) : Prop :=
  IsWalk m l ∧ l.head? = some a ∧ l.getLast? = some b

/-- `v` is reachable from the hard-coded source vertex `0`. -/
def Reachable (m : List (List Nat)) (v : Nat) : Prop :=
  ∃ l, WalkFromTo m 0 v l

/-- The set of weights of source-to-`v` walks. -/
def pathWeights (m : List (List Nat)) (v : Nat) : Set Nat :=
  {w | ∃ l, WalkFromTo m 0 v l ∧ walkW m l = w}

/-- The adjacency matrix is square (every row as long as the vertex count),
as the generator in the source guarantees. -/
def Square (m : List (List Nat)) : Prop :=
  ∀ r ∈ m, r.length = m.length

instance (m : List (List Nat)) : Decidable (Square m) :=
  inferInstanceAs (Decidable (∀ r ∈ m, r.length = m.length))

/-- `x ≤ y` on sentinel-valued distances (`none` is `+∞`). -/
def leD : Option Nat → Option Nat → Prop
  | _, none => True
  | none, some _ => False
  | some a, some b => a ≤ b

/-- `x < y` on sentinel-valued distances (`none` is `+∞`). -/
def sltD : Option Nat → Option Nat → Prop
  | none, _ => False
  | some _, none => True
  | some a, some b => a < b

/-- The well-formedness facts needed for termination: the visited list is
duplicate-free and every vertex mentioned in the visited list or the heap is
among the at most `length m + 1` vertices ever handled (the hard-coded
source `0` plus the matrix indices). -/
def WfInv (m : List (List Nat)) (s : DState) : Prop :=
  s.visited.Nodup ∧ (∀ v ∈ s.visited, v < m.length + 1) ∧ ∀ e ∈ s.heap, e.2 < m.length + 1

/-- Termination measure for the main loop: pending heap entries plus
capacity for the pushes the not-yet-visited vertices can still cause. -/
def dMeasure (m : List (List Nat)) (s : DState) : Nat :=
  s.heap.length + (m.length + 2) * ((m.length + 1) - s.visited.length)

/-- The correctness invariant of the relaxation loop. -/
structure Inv (m : List (List Nat)) (s : DState) : Prop where
  hlen : s.dist.length = m.length
  nodup : s.visited.Nodup
  vismem : ∀ v ∈ s.visited, v < m.length
  heapmem : ∀ e ∈ s.heap, e.2 < m.length
  sorted : s.heap.Pairwise entryLE
  source0 : s.dist.getD 0 none = some 0
  settled : ∀ v ∈ s.visited, ∃ d, s.dist.getD v none = some d ∧ IsLeast (pathWeights m v) d
  haspath : ∀ v d, s.dist.getD v none = some d → d ∈ pathWeights m v
  relaxed : ∀ u ∈ s.visited, ∀ v, EdgeP m u v → v ∉ s.visited →
    ∃ du dvv, s.dist.getD u none = some du ∧ s.dist.getD v none = some dvv ∧
      dvv ≤ du + entry m u v
  heapge : ∀ e ∈ s.heap, ∃ dvv, s.dist.getD e.2 none = some dvv ∧ dvv ≤ e.1
  heapdom : ∀ e ∈ s.heap, e.1 ∈ pathWeights m e.2
  frontier : ∀ v, v ∉ s.visited → ∀ d, s.dist.getD v none = some d → (d, v) ∈ s.heap

/-- A distance table that lower-bounds every walk weight (as the table left
behind by a completed run does). -/
def LowerTable (m : List (List Nat)) (dv : List (Option Nat)) : Prop :=
  ∀ v w, w ∈ pathWeights m v → ∃ d, dv.getD v none = some d ∧ d ≤ w

/-! ### Basic facts about the sentinel order and list access -/

theorem sltD_of_ltD {a : Nat} {x : Option Nat} (h : ltD a x = true) : sltD (some a) x := by
  cases x with
  | none => exact trivial
  | some b => simpa [ltD, sltD] using h

theorem ltD_false {a : Nat} {x : Option Nat} (h : ltD a x = false) :
    ∃ b, x = some b ∧ b ≤ a := by
  cases x with
  | none => simp [ltD] at h
  | some b => refine ⟨b, rfl, ?_⟩; simpa [ltD] using h

theorem sltD_trans {x y z : Option Nat} (h1 : sltD x y) (h2 : sltD y z) : sltD x z := by
  cases x <;> cases y <;> cases z <;> simp_all [sltD] <;> omega

theorem eqslt_trans {x y z : Option Nat} (h1 : x = y ∨ sltD x y) (h2 : y = z ∨ sltD y z) :
    x = z ∨ sltD x z := by
  rcases h1 with rfl | h1
  · exact h2
  · rcases h2 with rfl | h2
    · exact Or.inr h1
    · exact Or.inr (sltD_trans h1 h2)

theorem leD_of_eqslt {x y : Option Nat} (h : x = y ∨ sltD x y) : leD x y := by
  rcases h with rfl | h
  · cases x <;> simp [leD]
  · cases x <;> cases y <;> simp_all [sltD, leD] <;> omega

theorem leD_some_right {x : Option Nat} {b : Nat} (h : leD x (some b)) :
    ∃ a, x = some a ∧ a ≤ b := by
  cases x with
  | none => simp [leD] at h
  | some a => exact ⟨a, rfl, h⟩

theorem getD_set_self {l : List (Option Nat)} {i : Nat} (x : Option Nat) (h : i < l.length) :
    (l.set i x).getD i none = x := by
  simp [List.getD_eq_getElem?_getD, List.getElem?_set_self', List.getElem?_eq_getElem h]

theorem getD_set_ne {l : List (Option Nat)} {i j : Nat} (x : Option Nat) (h : i ≠ j) :
    (l.set i x).getD j none = l.getD j none := by
  simp [List.getD_eq_getElem?_getD, List.getElem?_set_ne h]

theorem getD_replicate_none {n v : Nat} :
    (List.replicate n (none : Option Nat)).getD v none = none := by
  simp [List.getD_eq_getElem?_getD, List.getElem?_replicate]
  split <;> rfl

theorem initDV_length {n : Nat} : (initDV n).length = n := by
  simp [initDV]

theorem initDV_zero {n : Nat} (h : 0 < n) : (initDV n).getD 0 none = some 0 := by
  unfold initDV
  exact getD_set_self _ (by simpa using h)

theorem initDV_ne {n v : Nat} (h : v ≠ 0) : (initDV n).getD v none = none := by
  unfold initDV
  rw [getD_set_ne _ (fun hh => h hh.symm)]
  exact getD_replicate_none

/-! ### Heap (sorted-list priority queue) facts -/

theorem mem_heapPush {h : List (Nat × Nat)} {x e : Nat × Nat} :
    e ∈ heapPush h x ↔ e = x ∨ e ∈ h := by
  simp [heapPush, List.mem_orderedInsert]

theorem length_heapPush {h : List (Nat × Nat)} {x : Nat × Nat} :
    (heapPush h x).length = h.length + 1 := by
  simp [heapPush, List.orderedInsert_length]

theorem sorted_heapPush {h : List (Nat × Nat)} {x : Nat × Nat}
    (hs : h.Pairwise entryLE) : (heapPush h x).Pairwise entryLE :=
  List.Sorted.orderedInsert x h hs

theorem head_min {d u : Nat} {t : List (Nat × Nat)} {e : Nat × Nat}
    (hs : ((d, u) :: t).Pairwise entryLE) (he : e ∈ (d, u) :: t) : d ≤ e.1 := by
  rcases List.mem_cons.mp he with rfl | he
  · exact Nat.le_refl _
  · have := (List.pairwise_cons.mp hs).1 e he
    rcases this with h | ⟨h, _⟩
    · exact Nat.le_of_lt h
    · exact Nat.le_of_eq h

/-! ### Edges, neighbours and walks -/

theorem EdgeP_iff {m : List (List Nat)} {a b : Nat} :
    EdgeP m a b ↔ entry m a b ≠ 0 := by
  unfold EdgeP distance
  split <;> simp_all

theorem mem_neighbours {m : List (List Nat)} {i j : Nat} :
    j ∈ neighbours m i ↔ j < m.length ∧ entry m i j ≠ 0 := by
  unfold neighbours
  rw [List.mem_filter, List.mem_range]
  constructor
  · rintro ⟨h1, h2⟩
    exact ⟨h1, EdgeP_iff.mp h2⟩
  · rintro ⟨h1, h2⟩
    exact ⟨h1, EdgeP_iff.mpr h2⟩

theorem length_neighbours {m : List (List Nat)} {i : Nat} :
    (neighbours m i).length ≤ m.length := by
  calc (neighbours m i).length ≤ (List.range m.length).length :=
        List.length_filter_le _ _
    _ = m.length := List.length_range _

theorem nodup_neighbours {m : List (List Nat)} {i : Nat} : (neighbours m i).Nodup :=
  (List.nodup_range _).filter _

theorem entry_pos_bounds {m : List (List Nat)} {a b : Nat} (h : entry m a b ≠ 0) :
    a < m.length ∧ b < (m.getD a []).length := by
  unfold entry at h
  constructor
  · by_contra ha
    rw [List.getD_eq_default m [] (Nat.le_of_not_lt ha)] at h
    simp at h
  · by_contra hb
    rw [List.getD_eq_default _ 0 (Nat.le_of_not_lt hb)] at h
    exact h rfl

theorem EdgeP_lt_of_square {m : List (List Nat)} {a b : Nat} (hsq : Square m)
    (h : EdgeP m a b) : b < m.length := by
  have hne : entry m a b ≠ 0 := EdgeP_iff.mp h
  obtain ⟨ha, hb⟩ := entry_pos_bounds hne
  have hrow : m.getD a [] ∈ m := by
    rw [List.getD_eq_getElem _ _ ha]
    exact List.getElem_mem _
  have hlen : (m.getD a []).length = m.length := hsq _ hrow
  omega

theorem mem_neighbours_of_EdgeP {m : List (List Nat)} {u v : Nat} (hsq : Square m)
    (h : EdgeP m u v) : v ∈ neighbours m u :=
  mem_neighbours.mpr ⟨EdgeP_lt_of_square hsq h, EdgeP_iff.mp h⟩

theorem walk_singleton {m : List (List Nat)} (a : Nat) : WalkFromTo m a a [a] :=
  ⟨List.chain'_singleton a, rfl, rfl⟩

theorem pathWeights_source {m : List (List Nat)} : 0 ∈ pathWeights m 0 :=
  ⟨[0], walk_singleton 0, rfl⟩

theorem walkW_concat {m : List (List Nat)} :
    ∀ (l : List Nat) (y x : Nat), l.getLast? = some y →
      walkW m (l ++ [x]) = walkW m l + entry m y x := by
  intro l
  induction l with
  | nil => intro y x h; simp at h
  | cons a t ih =>
    intro y x h
    cases t with
    | nil =>
      simp at h
      subst h
      simp [walkW]
    | cons b t' =>
      rw [List.getLast?_cons_cons] at h
      have ih' := ih y x h
      have e1 : walkW m ((a :: b :: t') ++ [x]) =
          entry m a b + walkW m ((b :: t') ++ [x]) := rfl
      have e2 : walkW m (a :: b :: t') = entry m a b + walkW m (b :: t') := rfl
      omega

theorem walk_concat {m : List (List Nat)} {u v : Nat} {l : List Nat}
    (h : WalkFromTo m 0 u l) (he : EdgeP m u v) :
    WalkFromTo m 0 v (l ++ [v]) ∧ walkW m (l ++ [v]) = walkW m l + entry m u v := by
  obtain ⟨hc, hh, hl⟩ := h
  refine ⟨⟨?_, ?_, ?_⟩, walkW_concat l u v hl⟩
  · show List.Chain' (EdgeP m) (l ++ [v])
    rw [List.chain'_append]
    refine ⟨hc, List.chain'_singleton v, ?_⟩
    intro x hx y hy
    simp at hy
    subst hy
    rw [hl] at hx
    cases hx
    exact he
  · cases l with
    | nil => simp at hh
    | cons a t => simpa using hh
  · exact List.getLast?_concat _

theorem pathWeights_extend {m : List (List Nat)} {u v w : Nat}
    (hw : w ∈ pathWeights m u) (he : EdgeP m u v) :
    w + entry m u v ∈ pathWeights m v := by
  obtain ⟨l, hwalk, hweight⟩ := hw
  obtain ⟨hwalk', hweight'⟩ := walk_concat hwalk he
  exact ⟨l ++ [v], hwalk', by rw [hweight', hweight]⟩

/-- Crossing lemma: a walk from the source to an unvisited vertex either
shows the source itself unvisited, or crosses the visited boundary along an
edge whose endpoints give a weight bound below the walk's weight. -/
theorem walk_cross {m : List (List Nat)} (V : List Nat) :
    ∀ (l : List Nat) (u : Nat), WalkFromTo m 0 u l → u ∉ V →
      0 ∉ V ∨ ∃ y x ly, y ∈ V ∧ x ∉ V ∧ EdgeP m y x ∧ WalkFromTo m 0 y ly ∧
        walkW m ly + entry m y x ≤ walkW m l := by
  intro l
  induction l using List.reverseRecOn with
  | nil =>
    intro u h _
    obtain ⟨_, hh, _⟩ := h
    simp at hh
  | append_singleton l a ih =>
    intro u h hu
    obtain ⟨hc, hh, hl⟩ := h
    rw [List.getLast?_concat] at hl
    have hau : a = u := by simpa using hl
    subst hau
    cases l with
    | nil =>
      have h0 : a = 0 := by simpa using hh
      subst h0
      exact Or.inl hu
    | cons b t =>
      obtain ⟨y', hy'⟩ : ∃ y', (b :: t).getLast? = some y' :=
        ⟨(b :: t).getLast (by simp), List.getLast?_eq_getLast _ _⟩
      have hsplit := List.chain'_append.mp hc
      have hedge : EdgeP m y' a := hsplit.2.2 y' hy' a rfl
      have hwalk : WalkFromTo m 0 y' (b :: t) := by
        refine ⟨hsplit.1, ?_, hy'⟩
        simpa using hh
      have hW : walkW m ((b :: t) ++ [a]) = walkW m (b :: t) + entry m y' a :=
        walkW_concat _ _ _ hy'
      by_cases hy'V : y' ∈ V
      · exact Or.inr ⟨y', a, b :: t, hy'V, hu, hedge, hwalk, by omega⟩
      · rcases ih y' hwalk hy'V with h0 | ⟨y, x, ly, h1, h2, h3, h4, h5⟩
        · exact Or.inl h0
        · exact Or.inr ⟨y, x, ly, h1, h2, h3, h4, by omega⟩

/-! ### Properties of the relaxation pass -/

theorem relaxList_cons_mem {m : List (List Nat)} {u du v : Nat} {rest : List Nat}
    {s : DState} (h : v ∈ s.visited) :
    relaxList m u du (v :: rest) s = relaxList m u du rest s := by
  simp only [relaxList]
  rw [if_pos h]

theorem relaxList_cons_update {m : List (List Nat)} {u du v : Nat} {rest : List Nat}
    {s : DState} (h1 : v ∉ s.visited)
    (h2 : ltD (du + entry m u v) (s.dist.getD v none) = true) :
    relaxList m u du (v :: rest) s = relaxList m u du rest
      { s with dist := s.dist.set v (some (du + entry m u v)),
               prev := s.prev.set v (some u),
               heap := heapPush s.heap (du + entry m u v, v) } := by
  simp only [relaxList]
  rw [if_neg h1, if_pos h2]

theorem relaxList_cons_skip {m : List (List Nat)} {u du v : Nat} {rest : List Nat}
    {s : DState} (h1 : v ∉ s.visited)
    (h2 : ltD (du + entry m u v) (s.dist.getD v none) = false) :
    relaxList m u du (v :: rest) s = relaxList m u du rest s := by
  simp only [relaxList]
  rw [if_neg h1, if_neg (by rw [h2]; simp)]

theorem relaxList_visited {m : List (List Nat)} {u du : Nat} :
    ∀ (ns : List Nat) (s : DState), (relaxList m u du ns s).visited = s.visited := by
  intro ns
  induction ns with
  | nil => intro s; rfl
  | cons v rest ih =>
    intro s
    unfold relaxList
    split
    · exact ih s
    · split
      · rw [ih]
      · exact ih s

theorem relaxList_prev_length {m : List (List Nat)} {u du : Nat} :
    ∀ (ns : List Nat) (s : DState), (relaxList m u du ns s).prev.length = s.prev.length := by
  intro ns
  induction ns with
  | nil => intro s; rfl
  | cons v rest ih =>
    intro s
    unfold relaxList
    split
    · exact ih s
    · split
      · rw [ih]; simp
      · exact ih s

theorem relaxList_dist_length {m : List (List Nat)} {u du : Nat} :
    ∀ (ns : List Nat) (s : DState), (relaxList m u du ns s).dist.length = s.dist.length := by
  intro ns
  induction ns with
  | nil => intro s; rfl
  | cons v rest ih =>
    intro s
    unfold relaxList
    split
    · exact ih s
    · split
      · rw [ih]; simp
      · exact ih s

theorem relaxList_eqslt {m : List (List Nat)} {u du : Nat} :
    ∀ (ns : List Nat) (s : DState) (v : Nat),
      (relaxList m u du ns s).dist.getD v none = s.dist.getD v none ∨
        sltD ((relaxList m u du ns s).dist.getD v none) (s.dist.getD v none) := by
  intro ns
  induction ns with
  | nil => intro s v; exact Or.inl rfl
  | cons w rest ih =>
    intro s v
    unfold relaxList
    split
    · exact ih s v
    · split
      · rename_i hvis hlt
        set s₁ : DState :=
          { s with dist := s.dist.set w (some (du + entry m u w)),
                   prev := s.prev.set w (some u),
                   heap := heapPush s.heap (du + entry m u w, w) } with hs₁
        have hstep : s₁.dist.getD v none = s.dist.getD v none ∨
            sltD (s₁.dist.getD v none) (s.dist.getD v none) := by
          by_cases hvw : v = w
          · subst hvw
            by_cases hvl : v < s.dist.length
            · rw [hs₁]
              simp only
              rw [getD_set_self _ hvl]
              exact Or.inr (sltD_of_ltD hlt)
            · rw [hs₁]
              simp only
              rw [List.getD_eq_default _ _ (by simpa using Nat.le_of_not_lt hvl),
                List.getD_eq_default _ _ (Nat.le_of_not_lt hvl)]
              exact Or.inl rfl
          · rw [hs₁]
            simp only
            rw [getD_set_ne _ (fun hh => hvw hh.symm)]
            exact Or.inl rfl
        exact eqslt_trans (ih s₁ v) hstep
      · exact ih s v

theorem relaxList_value_new {m : List (List Nat)} {u du : Nat} :
    ∀ (ns : List Nat) (s : DState) (v : Nat) (d' : Nat),
      (relaxList m u du ns s).dist.getD v none = some d' →
      s.dist.getD v none = some d' ∨
        (v ∈ ns ∧ v ∉ s.visited ∧ d' = du + entry m u v) := by
  intro ns
  induction ns with
  | nil => intro s v d' h; exact Or.inl h
  | cons w rest ih =>
    intro s v d' h
    unfold relaxList at h
    split at h
    · rcases ih s v d' h with h1 | ⟨h1, h2, h3⟩
      · exact Or.inl h1
      · exact Or.inr ⟨List.mem_cons_of_mem _ h1, h2, h3⟩
    · rename_i hvis
      split at h
      · rcases ih _ v d' h with h1 | ⟨h1, h2, h3⟩
        · by_cases hvw : v = w
          · subst hvw
            by_cases hvl : v < s.dist.length
            · rw [getD_set_self _ hvl] at h1
              cases h1
              exact Or.inr ⟨List.mem_cons_self _ _, hvis, rfl⟩
            · have hlen : (s.dist.set v (some (du + entry m u v))).length ≤ v := by
                rw [List.length_set]
                omega
              rw [List.getD_eq_default _ _ hlen] at h1
              exact absurd h1 (by simp)
          · rw [getD_set_ne _ (fun hh => hvw hh.symm)] at h1
            exact Or.inl h1
        · exact Or.inr ⟨List.mem_cons_of_mem _ h1, h2, h3⟩
      · rcases ih s v d' h with h1 | ⟨h1, h2, h3⟩
        · exact Or.inl h1
        · exact Or.inr ⟨List.mem_cons_of_mem _ h1, h2, h3⟩

theorem relaxList_dist_unchanged {m : List (List Nat)} {u du : Nat} :
    ∀ (ns : List Nat) (s : DState) (v : Nat), v ∈ s.visited ∨ v ∉ ns →
      (relaxList m u du ns s).dist.getD v none = s.dist.getD v none := by
  intro ns
  induction ns with
  | nil => intro s v _; rfl
  | cons w rest ih =>
    intro s v hv
    have hvrest : v ∈ s.visited ∨ v ∉ rest := by
      rcases hv with h | h
      · exact Or.inl h
      · exact Or.inr (fun hh => h (List.mem_cons_of_mem _ hh))
    unfold relaxList
    split
    · exact ih s v hvrest
    · rename_i hvis
      split
      · have hvw : v ≠ w := by
          rintro rfl
          rcases hv with h | h
          · exact hvis h
          · exact h (List.mem_cons_self _ _)
        rw [ih _ v (by simpa using hvrest)]
        simp only
        rw [getD_set_ne _ (fun hh => hvw hh.symm)]
      · exact ih s v hvrest

theorem relaxList_relaxpost {m : List (List Nat)} {u du : Nat} :
    ∀ (ns : List Nat) (s : DState), (∀ v ∈ ns, v < s.dist.length) →
      ∀ v ∈ ns, v ∉ s.visited →
        ∃ dv', (relaxList m u du ns s).dist.getD v none = some dv' ∧
          dv' ≤ du + entry m u v := by
  intro ns
  induction ns with
  | nil => intro s _ v hv; simp at hv
  | cons w rest ih =>
    intro s hlt v hv hvis
    have hstep : ∀ (s₁ : DState), s₁.visited = s.visited → s₁.dist.length = s.dist.length →
        (∃ c, s₁.dist.getD v none = some c ∧ c ≤ du + entry m u v) →
        ∃ dv', (relaxList m u du rest s₁).dist.getD v none = some dv' ∧
          dv' ≤ du + entry m u v := by
      intro s₁ _ _ ⟨c, hc, hcle⟩
      rcases relaxList_eqslt rest s₁ v with he | hs
      · exact ⟨c, by rw [he]; exact hc, hcle⟩
      · rw [hc] at hs
        cases hres : (relaxList m u du rest s₁).dist.getD v none with
        | none => rw [hres] at hs; exact absurd hs (by simp [sltD])
        | some a =>
          rw [hres] at hs
          exact ⟨a, rfl, by simp [sltD] at hs; omega⟩
    rcases List.mem_cons.mp hv with rfl | hvrest
    · -- v is the head: it is processed right now
      unfold relaxList
      rw [if_neg hvis]
      split
      · rename_i hltD
        refine hstep _ rfl (by simp) ⟨du + entry m u v, ?_, Nat.le_refl _⟩
        exact getD_set_self _ (hlt v (List.mem_cons_self _ _))
      · rename_i hltD
        obtain ⟨b, hb, hble⟩ := ltD_false (Bool.of_not_eq_true hltD)
        exact hstep s rfl rfl ⟨b, hb, hble⟩
    · -- v occurs later in the list
      unfold relaxList
      split
      · exact ih s (fun x hx => hlt x (List.mem_cons_of_mem _ hx)) v hvrest hvis
      · split
        · refine ih _ ?_ v hvrest (by simpa using hvis)
          intro x hx
          simpa using hlt x (List.mem_cons_of_mem _ hx)
        · exact ih s (fun x hx => hlt x (List.mem_cons_of_mem _ hx)) v hvrest hvis

theorem relaxList_heap_mem {m : List (List Nat)} {u du : Nat} :
    ∀ (ns : List Nat) (s : DState) (e : Nat × Nat), e ∈ (relaxList m u du ns s).heap →
      e ∈ s.heap ∨ ∃ v, v ∈ ns ∧ v ∉ s.visited ∧ e = (du + entry m u v, v) := by
  intro ns
  induction ns with
  | nil => intro s e he; exact Or.inl he
  | cons w rest ih =>
    intro s e he
    unfold relaxList at he
    split at he
    · rcases ih s e he with h | ⟨v, h1, h2, h3⟩
      · exact Or.inl h
      · exact Or.inr ⟨v, List.mem_cons_of_mem _ h1, h2, h3⟩
    · rename_i hvis
      split at he
      · rcases ih _ e he with h | ⟨v, h1, h2, h3⟩
        · rcases mem_heapPush.mp h with h' | h'
          · exact Or.inr ⟨w, List.mem_cons_self _ _, hvis, h'⟩
          · exact Or.inl h'
        · exact Or.inr ⟨v, List.mem_cons_of_mem _ h1, by simpa using h2, h3⟩
      · rcases ih s e he with h | ⟨v, h1, h2, h3⟩
        · exact Or.inl h
        · exact Or.inr ⟨v, List.mem_cons_of_mem _ h1, h2, h3⟩

theorem relaxList_heap_mem_old {m : List (List Nat)} {u du : Nat} :
    ∀ (ns : List Nat) (s : DState) (e : Nat × Nat), e ∈ s.heap →
      e ∈ (relaxList m u du ns s).heap := by
  intro ns
  induction ns with
  | nil => intro s e he; exact he
  | cons w rest ih =>
    intro s e he
    unfold relaxList
    split
    · exact ih s e he
    · split
      · exact ih _ e (by simpa using mem_heapPush.mpr (Or.inr he))
      · exact ih s e he

theorem relaxList_heap_length {m : List (List Nat)} {u du : Nat} :
    ∀ (ns : List Nat) (s : DState),
      (relaxList m u du ns s).heap.length ≤ s.heap.length + ns.length := by
  intro ns
  induction ns with
  | nil => intro s; simp [relaxList]
  | cons w rest ih =>
    intro s
    by_cases hvis : w ∈ s.visited
    · rw [relaxList_cons_mem hvis]
      calc (relaxList m u du rest s).heap.length ≤ s.heap.length + rest.length := ih s
        _ ≤ s.heap.length + (w :: rest).length := by simp
    · cases hltD : ltD (du + entry m u w) (s.dist.getD w none) with
      | true =>
        rw [relaxList_cons_update hvis hltD]
        refine Nat.le_trans (ih _) ?_
        simp [length_heapPush]
        omega
      | false =>
        rw [relaxList_cons_skip hvis hltD]
        calc (relaxList m u du rest s).heap.length ≤ s.heap.length + rest.length := ih s
          _ ≤ s.heap.length + (w :: rest).length := by simp

theorem relaxList_sorted {m : List (List Nat)} {u du : Nat} :
    ∀ (ns : List Nat) (s : DState), s.heap.Pairwise entryLE →
      (relaxList m u du ns s).heap.Pairwise entryLE := by
  intro ns
  induction ns with
  | nil => intro s hs; exact hs
  | cons w rest ih =>
    intro s hs
    unfold relaxList
    split
    · exact ih s hs
    · split
      · exact ih _ (by simpa using sorted_heapPush hs)
      · exact ih s hs

theorem relaxList_heap_vertices {m : List (List Nat)} {u du k : Nat}
    {ns : List Nat} {s : DState} (hns : ∀ v ∈ ns, v < k)
    (hs : ∀ e ∈ s.heap, e.2 < k) :
    ∀ e ∈ (relaxList m u du ns s).heap, e.2 < k := by
  intro e he
  rcases relaxList_heap_mem ns s e he with h | ⟨v, h1, _, h3⟩
  · exact hs e h
  · rw [h3]
    exact hns v h1

theorem relaxList_heapge {m : List (List Nat)} {u du : Nat} :
    ∀ (ns : List Nat) (s : DState), (∀ v ∈ ns, v < s.dist.length) →
      (∀ e ∈ s.heap, ∃ dvv, s.dist.getD e.2 none = some dvv ∧ dvv ≤ e.1) →
      ∀ e ∈ (relaxList m u du ns s).heap,
        ∃ dvv, (relaxList m u du ns s).dist.getD e.2 none = some dvv ∧ dvv ≤ e.1 := by
  intro ns
  induction ns with
  | nil => intro s _ hs e he; exact hs e he
  | cons w rest ih =>
    intro s hlt hs e he
    have hltrest : ∀ v ∈ rest, v < s.dist.length :=
      fun v hv => hlt v (List.mem_cons_of_mem _ hv)
    have hwl : w < s.dist.length := hlt w (List.mem_cons_self _ _)
    by_cases hvis : w ∈ s.visited
    · rw [relaxList_cons_mem hvis] at he ⊢
      exact ih s hltrest hs e he
    · cases hltD : ltD (du + entry m u w) (s.dist.getD w none) with
      | true =>
        rw [relaxList_cons_update hvis hltD] at he ⊢
        refine ih _ (by simpa using hltrest) ?_ e he
        intro e' he'
        rcases mem_heapPush.mp (by simpa using he') with rfl | hold
        · refine ⟨du + entry m u w, ?_, Nat.le_refl _⟩
          show (s.dist.set w (some (du + entry m u w))).getD w none = _
          exact getD_set_self _ hwl
        · obtain ⟨dvv, hd, hdle⟩ := hs e' hold
          by_cases hew : e'.2 = w
          · refine ⟨du + entry m u w, ?_, ?_⟩
            · show (s.dist.set w (some (du + entry m u w))).getD e'.2 none = _
              rw [hew]
              exact getD_set_self _ hwl
            · have hslt := sltD_of_ltD hltD
              rw [hew] at hd
              rw [hd] at hslt
              simp [sltD] at hslt
              omega
          · refine ⟨dvv, ?_, hdle⟩
            show (s.dist.set w (some (du + entry m u w))).getD e'.2 none = _
            rw [getD_set_ne _ (fun hh => hew hh.symm)]
            exact hd
      | false =>
        rw [relaxList_cons_skip hvis hltD] at he ⊢
        exact ih s hltrest hs e he

theorem relaxList_frontier {m : List (List Nat)} {u du : Nat} :
    ∀ (ns : List Nat) (s : DState),
      (∀ v, v ∉ s.visited → ∀ d, s.dist.getD v none = some d → (d, v) ∈ s.heap) →
      ∀ v, v ∉ (relaxList m u du ns s).visited →
        ∀ d, (relaxList m u du ns s).dist.getD v none = some d →
          (d, v) ∈ (relaxList m u du ns s).heap := by
  intro ns
  induction ns with
  | nil => intro s hs v hv d hd; exact hs v hv d hd
  | cons w rest ih =>
    intro s hs v hv d hd
    by_cases hwvis : w ∈ s.visited
    · rw [relaxList_cons_mem hwvis] at hv hd ⊢
      exact ih s hs v hv d hd
    · cases hltD : ltD (du + entry m u w) (s.dist.getD w none) with
      | true =>
        rw [relaxList_cons_update hwvis hltD] at hv hd ⊢
        refine ih _ ?_ v hv d hd
        intro x hx dx hdx
        simp only at hx hdx ⊢
        by_cases hxw : x = w
        · subst hxw
          by_cases hwl : x < s.dist.length
          · rw [getD_set_self _ hwl] at hdx
            cases hdx
            exact mem_heapPush.mpr (Or.inl rfl)
          · rw [List.getD_eq_default _ _ (by rw [List.length_set]; omega)] at hdx
            cases hdx
        · rw [getD_set_ne _ (fun hh => hxw hh.symm)] at hdx
          exact mem_heapPush.mpr (Or.inr (hs x hx dx hdx))
      | false =>
        rw [relaxList_cons_skip hwvis hltD] at hv hd ⊢
        exact ih s hs v hv d hd

theorem relaxList_noop {m : List (List Nat)} {u du : Nat} :
    ∀ (ns : List Nat) (s : DState),
      (∀ v ∈ ns, v ∉ s.visited → ltD (du + entry m u v) (s.dist.getD v none) = false) →
      relaxList m u du ns s = s := by
  intro ns
  induction ns with
  | nil => intro s _; rfl
  | cons w rest ih =>
    intro s hs
    unfold relaxList
    split
    · exact ih s fun v hv => hs v (List.mem_cons_of_mem _ hv)
    · rename_i hvis
      rw [if_neg]
      · exact ih s fun v hv => hs v (List.mem_cons_of_mem _ hv)
      · rw [hs w (List.mem_cons_self _ _) hvis]
        simp

/-! ### The main loop: step equations, termination, global monotonicity -/

theorem loopFuel_zero {m : List (List Nat)} {s : DState} :
    loopFuel m 0 s = if s.heap.isEmpty then some s else none := rfl

theorem loopFuel_nil {m : List (List Nat)} {fuel : Nat} {s : DState}
    (hh : s.heap = []) : loopFuel m (fuel + 1) s = some s := by
  simp only [loopFuel, hh]

theorem loopFuel_stale {m : List (List Nat)} {fuel d u : Nat} {t : List (Nat × Nat)}
    {s : DState} (hh : s.heap = (d, u) :: t) (hv : u ∈ s.visited) :
    loopFuel m (fuel + 1) s = loopFuel m fuel { s with heap := t } := by
  simp only [loopFuel, hh]
  rw [if_pos hv]

theorem loopFuel_fresh {m : List (List Nat)} {fuel d u : Nat} {t : List (Nat × Nat)}
    {s : DState} (hh : s.heap = (d, u) :: t) (hv : u ∉ s.visited) :
    loopFuel m (fuel + 1) s = loopFuel m fuel
      (relaxList m u d (neighbours m u) { s with heap := t, visited := u :: s.visited }) := by
  simp only [loopFuel, hh]
  rw [if_neg hv]

theorem loopFuel_heap_nil {m : List (List Nat)} :
    ∀ (fuel : Nat) (s s' : DState), loopFuel m fuel s = some s' → s'.heap = [] := by
  intro fuel
  induction fuel with
  | zero =>
    intro s s' h
    rw [loopFuel_zero] at h
    split at h
    · cases h
      rename_i hemp
      exact List.isEmpty_iff.mp hemp
    · cases h
  | succ fuel ih =>
    intro s s' h
    cases hh : s.heap with
    | nil =>
      rw [loopFuel_nil hh] at h
      cases h
      exact hh
    | cons e t =>
      obtain ⟨d, u⟩ := e
      by_cases hv : u ∈ s.visited
      · rw [loopFuel_stale hh hv] at h
        exact ih _ _ h
      · rw [loopFuel_fresh hh hv] at h
        exact ih _ _ h

theorem nodup_bounded_length {l : List Nat} {k : Nat} (h : l.Nodup)
    (hb : ∀ v ∈ l, v < k) : l.length ≤ k := by
  have hsub : l.toFinset ⊆ Finset.range k := by
    intro v hv
    rw [List.mem_toFinset] at hv
    exact Finset.mem_range.mpr (hb v hv)
  have hcard := Finset.card_le_card hsub
  rwa [List.toFinset_card_of_nodup h, Finset.card_range] at hcard

theorem loopFuel_total {m : List (List Nat)} :
    ∀ (fuel : Nat) (s : DState), WfInv m s → dMeasure m s ≤ fuel →
      ∃ s', loopFuel m fuel s = some s' := by
  intro fuel
  induction fuel with
  | zero =>
    intro s _ hm
    have hlen : s.heap.length = 0 := by
      unfold dMeasure at hm
      omega
    refine ⟨s, ?_⟩
    rw [loopFuel_zero, if_pos (List.isEmpty_iff.mpr (List.length_eq_zero.mp hlen))]
  | succ fuel ih =>
    intro s hwf hm
    obtain ⟨hnd, hvb, hhb⟩ := hwf
    cases hh : s.heap with
    | nil => exact ⟨s, loopFuel_nil hh⟩
    | cons e t =>
      obtain ⟨d, u⟩ := e
      have htlen : s.heap.length = t.length + 1 := by rw [hh]; rfl
      have htb : ∀ e ∈ t, e.2 < m.length + 1 :=
        fun e he => hhb e (by rw [hh]; exact List.mem_cons_of_mem _ he)
      by_cases hv : u ∈ s.visited
      · -- stale entry: the heap shrinks, the measure drops by one
        have hwf' : WfInv m { s with heap := t } := ⟨hnd, hvb, htb⟩
        have hm' : dMeasure m { s with heap := t } ≤ fuel := by
          unfold dMeasure at hm ⊢
          simp only at hm ⊢
          omega
        obtain ⟨s', hs'⟩ := ih _ hwf' hm'
        exact ⟨s', by rw [loopFuel_stale hh hv]; exact hs'⟩
      · -- fresh vertex: the visited set grows, amortizing the new pushes
        have hub : u < m.length + 1 := hhb (d, u) (by rw [hh]; exact List.mem_cons_self _ _)
        have hvlen : s.visited.length + 1 ≤ m.length + 1 := by
          have : (u :: s.visited).Nodup := List.nodup_cons.mpr ⟨hv, hnd⟩
          have := nodup_bounded_length this (by
            intro x hx
            rcases List.mem_cons.mp hx with rfl | hx
            · exact hub
            · exact hvb x hx)
          simpa using this
        have hwf' : WfInv m (relaxList m u d (neighbours m u)
            { s with heap := t, visited := u :: s.visited }) := by
          refine ⟨?_, ?_, ?_⟩
          · rw [relaxList_visited]
            exact List.nodup_cons.mpr ⟨hv, hnd⟩
          · rw [relaxList_visited]
            intro x hx
            rcases List.mem_cons.mp hx with rfl | hx
            · exact hub
            · exact hvb x hx
          · refine relaxList_heap_vertices ?_ ?_
            · intro v hvn
              have := mem_neighbours.mp hvn
              omega
            · intro e he
              exact htb e he
        have hm' : dMeasure m (relaxList m u d (neighbours m u)
            { s with heap := t, visited := u :: s.visited }) ≤ fuel := by
          have hh1 : (relaxList m u d (neighbours m u)
              { s with heap := t, visited := u :: s.visited }).heap.length ≤
              t.length + m.length := by
            refine Nat.le_trans (relaxList_heap_length _ _) ?_
            have := length_neighbours (m := m) (i := u)
            simp only
            omega
          have hh2 : (relaxList m u d (neighbours m u)
              { s with heap := t, visited := u :: s.visited }).visited.length =
              s.visited.length + 1 := by
            rw [relaxList_visited]
            rfl
          unfold dMeasure at hm ⊢
          rw [hh2]
          have hsplit : (m.length + 1) - s.visited.length =
              ((m.length + 1) - (s.visited.length + 1)) + 1 := by omega
          rw [hsplit] at hm
          rw [Nat.mul_add, Nat.mul_one] at hm
          omega
        obtain ⟨s', hs'⟩ := ih _ hwf' hm'
        exact ⟨s', by rw [loopFuel_fresh hh hv]; exact hs'⟩

theorem loopFuel_eqslt {m : List (List Nat)} :
    ∀ (fuel : Nat) (s s' : DState), loopFuel m fuel s = some s' → ∀ v,
      s'.dist.getD v none = s.dist.getD v none ∨
        sltD (s'.dist.getD v none) (s.dist.getD v none) := by
  intro fuel
  induction fuel with
  | zero =>
    intro s s' h v
    rw [loopFuel_zero] at h
    split at h
    · cases h
      exact Or.inl rfl
    · cases h
  | succ fuel ih =>
    intro s s' h v
    cases hh : s.heap with
    | nil =>
      rw [loopFuel_nil hh] at h
      cases h
      exact Or.inl rfl
    | cons e t =>
      obtain ⟨d, u⟩ := e
      by_cases hv : u ∈ s.visited
      · rw [loopFuel_stale hh hv] at h
        exact ih _ _ h v
      · rw [loopFuel_fresh hh hv] at h
        exact eqslt_trans (ih _ _ h v)
          (relaxList_eqslt (neighbours m u) { s with heap := t, visited := u :: s.visited } v)

/-! ### The correctness invariant: establishment, preservation, consequences -/

theorem inv_init {m : List (List Nat)} (h0 : 0 < m.length) :
    Inv m { dist := initDV m.length, prev := List.replicate m.length none,
            visited := [], heap := [(0, 0)] } := by
  refine ⟨?_, ?_, ?_, ?_, ?_, ?_, ?_, ?_, ?_, ?_, ?_, ?_⟩
  · exact initDV_length
  · exact List.nodup_nil
  · intro v hv
    simp at hv
  · intro e he
    simp at he
    rw [he]
    exact h0
  · exact List.pairwise_singleton _ _
  · exact initDV_zero h0
  · intro v hv
    simp at hv
  · intro v dvv hd
    by_cases hv : v = 0
    · subst hv
      rw [initDV_zero h0] at hd
      cases hd
      exact pathWeights_source
    · rw [initDV_ne hv] at hd
      cases hd
  · intro y hy
    simp at hy
  · intro e he
    simp at he
    rw [he]
    exact ⟨0, initDV_zero h0, Nat.le_refl 0⟩
  · intro e he
    simp at he
    rw [he]
    exact pathWeights_source
  · intro v _ dvv hd
    by_cases hv : v = 0
    · subst hv
      rw [initDV_zero h0] at hd
      cases hd
      simp
    · rw [initDV_ne hv] at hd
      cases hd

theorem greedy_pop {m : List (List Nat)} {s : DState} {d u : Nat} {t : List (Nat × Nat)}
    (hinv : Inv m s) (hh : s.heap = (d, u) :: t) (hv : u ∉ s.visited) :
    s.dist.getD u none = some d ∧ IsLeast (pathWeights m u) d := by
  have hdmem : d ∈ pathWeights m u := by
    have := hinv.heapdom (d, u) (by rw [hh]; exact List.mem_cons_self _ _)
    simpa using this
  have hsorted : ((d, u) :: t).Pairwise entryLE := by
    have hs := hinv.sorted
    rw [hh] at hs
    exact hs
  have hlb : ∀ w ∈ pathWeights m u, d ≤ w := by
    rintro w ⟨l, hwalk, hW⟩
    rcases walk_cross s.visited l u hwalk hv with h0 | ⟨y, x, ly, hyV, hxV, hedge, hwalky, hble⟩
    · have hf : ((0 : Nat), (0 : Nat)) ∈ s.heap := hinv.frontier 0 h0 0 hinv.source0
      rw [hh] at hf
      have := head_min hsorted hf
      omega
    · obtain ⟨dy, hdy, hyleast⟩ := hinv.settled y hyV
      obtain ⟨dy', dx, hdy', hdx, hrel⟩ := hinv.relaxed y hyV x hedge hxV
      rw [hdy] at hdy'
      cases hdy'
      have hyle : dy ≤ walkW m ly := hyleast.2 ⟨ly, hwalky, rfl⟩
      have hf : (dx, x) ∈ s.heap := hinv.frontier x hxV dx hdx
      rw [hh] at hf
      have hdle := head_min hsorted hf
      simp at hdle
      omega
  obtain ⟨du', hdu', hdule⟩ := hinv.heapge (d, u) (by rw [hh]; exact List.mem_cons_self _ _)
  have hdu2 : s.dist.getD u none = some du' := hdu'
  have hdule2 : du' ≤ d := hdule
  have hdup : du' ∈ pathWeights m u := hinv.haspath u du' hdu2
  have : du' = d := Nat.le_antisymm hdule2 (hlb du' hdup)
  subst this
  exact ⟨hdu2, hdmem, hlb⟩

theorem inv_step_stale {m : List (List Nat)} {s : DState} {d u : Nat}
    {t : List (Nat × Nat)} (hinv : Inv m s) (hh : s.heap = (d, u) :: t)
    (hv : u ∈ s.visited) : Inv m { s with heap := t } := by
  have hsub : ∀ e ∈ t, e ∈ s.heap := by
    intro e he
    rw [hh]
    exact List.mem_cons_of_mem _ he
  refine ⟨hinv.hlen, hinv.nodup, hinv.vismem, ?_, ?_, hinv.source0, hinv.settled,
    hinv.haspath, hinv.relaxed, ?_, ?_, ?_⟩
  · exact fun e he => hinv.heapmem e (hsub e he)
  · have := hinv.sorted
    rw [hh] at this
    exact this.of_cons
  · exact fun e he => hinv.heapge e (hsub e he)
  · exact fun e he => hinv.heapdom e (hsub e he)
  · intro x hx dx hdx
    have hf := hinv.frontier x hx dx hdx
    rw [hh] at hf
    rcases List.mem_cons.mp hf with heq | hmem
    · cases heq
      exact absurd hv hx
    · exact hmem

theorem inv_step_fresh {m : List (List Nat)} {s : DState} {d u : Nat}
    {t : List (Nat × Nat)} (hsq : Square m) (hinv : Inv m s)
    (hh : s.heap = (d, u) :: t) (hv : u ∉ s.visited) :
    Inv m (relaxList m u d (neighbours m u)
      { s with heap := t, visited := u :: s.visited }) := by
  obtain ⟨hdu, hleast⟩ := greedy_pop hinv hh hv
  have hulen : u < m.length := by
    have := hinv.heapmem (d, u) (by rw [hh]; exact List.mem_cons_self _ _)
    simpa using this
  have hnb : ∀ v ∈ neighbours m u, v < m.length := fun v hvn => (mem_neighbours.mp hvn).1
  have htsub : ∀ e ∈ t, e ∈ s.heap := by
    intro e he
    rw [hh]
    exact List.mem_cons_of_mem _ he
  set smid : DState := { s with heap := t, visited := u :: s.visited } with hsmid
  have hmidlen : smid.dist.length = m.length := hinv.hlen
  have hnblen : ∀ v ∈ neighbours m u, v < smid.dist.length := by
    rw [hmidlen]
    exact hnb
  have hmid_unch : ∀ v, v ∈ smid.visited ∨ v ∉ neighbours m u →
      (relaxList m u d (neighbours m u) smid).dist.getD v none = s.dist.getD v none :=
    fun v hcase => relaxList_dist_unchanged (neighbours m u) smid v hcase
  refine ⟨?_, ?_, ?_, ?_, ?_, ?_, ?_, ?_, ?_, ?_, ?_, ?_⟩
  · rw [relaxList_dist_length]
    exact hinv.hlen
  · rw [relaxList_visited]
    exact List.nodup_cons.mpr ⟨hv, hinv.nodup⟩
  · rw [relaxList_visited]
    intro x hx
    rcases List.mem_cons.mp hx with rfl | hx
    · exact hulen
    · exact hinv.vismem x hx
  · exact relaxList_heap_vertices hnb (fun e he => hinv.heapmem e (htsub e he))
  · refine relaxList_sorted _ _ ?_
    have := hinv.sorted
    rw [hh] at this
    exact this.of_cons
  · have := @relaxList_eqslt m u d (neighbours m u) smid 0
    have hs0 : smid.dist.getD 0 none = some 0 := hinv.source0
    rw [hs0] at this
    obtain ⟨a, ha, hale⟩ := leD_some_right (leD_of_eqslt this)
    rw [ha]
    rw [Nat.le_zero.mp hale]
  · intro x hx
    rw [relaxList_visited] at hx
    rcases List.mem_cons.mp hx with rfl | hx
    · refine ⟨d, ?_, hleast⟩
      rw [hmid_unch x (Or.inl (List.mem_cons_self _ _))]
      exact hdu
    · obtain ⟨dx, hdx, hxleast⟩ := hinv.settled x hx
      refine ⟨dx, ?_, hxleast⟩
      rw [hmid_unch x (Or.inl (List.mem_cons_of_mem _ hx))]
      exact hdx
  · intro x dx hdx
    rcases relaxList_value_new (neighbours m u) smid x dx hdx with hold | ⟨hxn, _, hval⟩
    · exact hinv.haspath x dx hold
    · have hedge : EdgeP m u x := EdgeP_iff.mpr (mem_neighbours.mp hxn).2
      rw [hval]
      exact pathWeights_extend hleast.1 hedge
  · intro y hy x hedge hxnot
    rw [relaxList_visited] at hy hxnot
    have hxnu : x ∉ smid.visited := hxnot
    rcases List.mem_cons.mp hy with rfl | hyold
    · have hxn : x ∈ neighbours m y := mem_neighbours_of_EdgeP hsq hedge
      obtain ⟨dx, hdx, hdxle⟩ := relaxList_relaxpost (neighbours m y) smid hnblen x hxn hxnu
      refine ⟨d, dx, ?_, hdx, hdxle⟩
      rw [hmid_unch y (Or.inl (List.mem_cons_self _ _))]
      exact hdu
    · have hxnots : x ∉ s.visited := fun hc => hxnot (List.mem_cons_of_mem _ hc)
      obtain ⟨dy, dx, hdy, hdx, hrel⟩ := hinv.relaxed y hyold x hedge hxnots
      have heq := @relaxList_eqslt m u d (neighbours m u) smid x
      have hsmx : smid.dist.getD x none = some dx := hdx
      rw [hsmx] at heq
      obtain ⟨dx', hdx', hdx'le⟩ := leD_some_right (leD_of_eqslt heq)
      refine ⟨dy, dx', ?_, hdx', by omega⟩
      rw [hmid_unch y (Or.inl (List.mem_cons_of_mem _ hyold))]
      exact hdy
  · refine relaxList_heapge (neighbours m u) smid hnblen ?_
    intro e he
    exact hinv.heapge e (htsub e he)
  · intro e he
    rcases relaxList_heap_mem (neighbours m u) smid e he with hold | ⟨x, hxn, _, hval⟩
    · exact hinv.heapdom e (htsub e hold)
    · have hedge : EdgeP m u x := EdgeP_iff.mpr (mem_neighbours.mp hxn).2
      rw [hval]
      exact pathWeights_extend hleast.1 hedge
  · refine relaxList_frontier (neighbours m u) smid ?_
    intro x hx dx hdx
    have hxnots : x ∉ s.visited := fun hc => hx (List.mem_cons_of_mem _ hc)
    have hf := hinv.frontier x hxnots dx hdx
    rw [hh] at hf
    rcases List.mem_cons.mp hf with heq | hmem
    · cases heq
      exact absurd (List.mem_cons_self _ _) hx
    · exact hmem

theorem loopFuel_inv {m : List (List Nat)} (hsq : Square m) :
    ∀ (fuel : Nat) (s s' : DState), loopFuel m fuel s = some s' → Inv m s → Inv m s' := by
  intro fuel
  induction fuel with
  | zero =>
    intro s s' h hinv
    rw [loopFuel_zero] at h
    split at h
    · cases h
      exact hinv
    · cases h
  | succ fuel ih =>
    intro s s' h hinv
    cases hh : s.heap with
    | nil =>
      rw [loopFuel_nil hh] at h
      cases h
      exact hinv
    | cons e t =>
      obtain ⟨d, u⟩ := e
      by_cases hv : u ∈ s.visited
      · rw [loopFuel_stale hh hv] at h
        exact ih _ _ h (inv_step_stale hinv hh hv)
      · rw [loopFuel_fresh hh hv] at h
        exact ih _ _ h (inv_step_fresh hsq hinv hh hv)

theorem visited_of_reachable {m : List (List Nat)} {s : DState}
    (hinv : Inv m s) (hheap : s.heap = []) :
    ∀ v, Reachable m v → v ∈ s.visited := by
  intro v hr
  by_contra hv
  obtain ⟨l, hwalk⟩ := hr
  rcases walk_cross s.visited l v hwalk hv with h0 | ⟨y, x, ly, hyV, hxV, hedge, _, _⟩
  · have hf := hinv.frontier 0 h0 0 hinv.source0
    rw [hheap] at hf
    cases hf
  · obtain ⟨dy, dx, _, hdx, _⟩ := hinv.relaxed y hyV x hedge hxV
    have hf := hinv.frontier x hxV dx hdx
    rw [hheap] at hf
    cases hf

theorem final_settled {m : List (List Nat)} {s : DState}
    (hinv : Inv m s) (hheap : s.heap = []) {v : Nat} (hr : Reachable m v) :
    ∃ dvv, s.dist.getD v none = some dvv ∧ IsLeast (pathWeights m v) dvv :=
  hinv.settled v (visited_of_reachable hinv hheap v hr)

theorem fuelBound_eq_init_measure {m : List (List Nat)} {dv : List (Option Nat)} :
    dMeasure m { dist := dv, prev := List.replicate m.length none,
                 visited := [], heap := [(0, 0)] } = fuelBound m := by
  unfold dMeasure fuelBound
  simp
  ring

theorem dijkstra_terminates {m : List (List Nat)} (dv : List (Option Nat)) :
    ∃ s', dijkstra m dv = some s' := by
  have hwf : WfInv m ⟨dv, List.replicate m.length none, [], [(0, 0)]⟩ := by
    refine ⟨List.nodup_nil, ?_, ?_⟩
    · intro v hv
      simp at hv
    · intro e he
      simp at he
      rw [he]
      show (0 : Nat) < m.length + 1
      omega
  exact loopFuel_total (fuelBound m) _ hwf (Nat.le_of_eq fuelBound_eq_init_measure)

theorem dijkstra_inv {m : List (List Nat)} {s' : DState} (hsq : Square m)
    (h0 : 0 < m.length) (h : dijkstra m (initDV m.length) = some s') :
    Inv m s' ∧ s'.heap = [] :=
  ⟨loopFuel_inv hsq (fuelBound m) _ _ h (inv_init h0), loopFuel_heap_nil (fuelBound m) _ _ h⟩

theorem lowerTable_of_final {m : List (List Nat)} {s : DState}
    (hinv : Inv m s) (hheap : s.heap = []) : LowerTable m s.dist := by
  intro v w hw
  have hr : Reachable m v := by
    obtain ⟨l, hwalk, _⟩ := hw
    exact ⟨l, hwalk⟩
  obtain ⟨dvv, hd, hleast⟩ := final_settled hinv hheap hr
  exact ⟨dvv, hd, hleast.2 hw⟩

/-! ### A second run over an already-final distance table changes nothing -/

theorem loopFuel_frozen {m : List (List Nat)} {dv : List (Option Nat)}
    (hLT : LowerTable m dv) :
    ∀ (fuel : Nat) (s s' : DState), s.dist = dv →
      (∀ e ∈ s.heap, e.1 ∈ pathWeights m e.2) →
      loopFuel m fuel s = some s' → s'.dist = dv ∧ s'.prev = s.prev := by
  intro fuel
  induction fuel with
  | zero =>
    intro s s' hdv _ h
    rw [loopFuel_zero] at h
    split at h
    · cases h
      exact ⟨hdv, rfl⟩
    · cases h
  | succ fuel ih =>
    intro s s' hdv hheap h
    cases hh : s.heap with
    | nil =>
      rw [loopFuel_nil hh] at h
      cases h
      exact ⟨hdv, rfl⟩
    | cons e t =>
      obtain ⟨d, u⟩ := e
      have htp : ∀ e ∈ t, e.1 ∈ pathWeights m e.2 := by
        intro e he
        exact hheap e (by rw [hh]; exact List.mem_cons_of_mem _ he)
      by_cases hv : u ∈ s.visited
      · rw [loopFuel_stale hh hv] at h
        exact ih { s with heap := t } s' hdv htp h
      · rw [loopFuel_fresh hh hv] at h
        have hdPW : d ∈ pathWeights m u := by
          have := hheap (d, u) (by rw [hh]; exact List.mem_cons_self _ _)
          simpa using this
        have hnoop : relaxList m u d (neighbours m u)
            { s with heap := t, visited := u :: s.visited } =
            { s with heap := t, visited := u :: s.visited } := by
          refine relaxList_noop _ _ ?_
          intro v hvn _
          have hedge : EdgeP m u v := EdgeP_iff.mpr (mem_neighbours.mp hvn).2
          have hPW : d + entry m u v ∈ pathWeights m v := pathWeights_extend hdPW hedge
          obtain ⟨c, hc, hcle⟩ := hLT v (d + entry m u v) hPW
          show ltD (d + entry m u v) (s.dist.getD v none) = false
          rw [hdv, hc]
          simp [ltD]
          omega
        rw [hnoop] at h
        exact ih { s with heap := t, visited := u :: s.visited } s' hdv htp h

/-! ### Auxiliary facts for the claim theorems -/

theorem edges_weight {m : List (List Nat)} {i j w : Nat}
    (h : (i, j, w) ∈ edges m) : w = entry m i j := by
  unfold edges at h
  rw [List.mem_flatMap] at h
  obtain ⟨i', _, h⟩ := h
  rw [List.mem_map] at h
  obtain ⟨j', _, heq⟩ := h
  rw [Prod.mk.injEq, Prod.mk.injEq] at heq
  obtain ⟨rfl, rfl, rfl⟩ := heq
  rfl

theorem zeroM_unreachable : ¬ Reachable [[0, 0], [0, 0]] 1 := by
  rintro ⟨l, hc, hh, hl⟩
  cases l with
  | nil => simp at hh
  | cons x t =>
    have hx : x = 0 := by simpa using hh
    subst hx
    cases t with
    | nil => simp at hl
    | cons y t' =>
      have hedge : EdgeP [[0, 0], [0, 0]] 0 y := (List.chain'_cons.mp hc).1
      have hne := EdgeP_iff.mp hedge
      obtain ⟨_, hb⟩ := entry_pos_bounds hne
      have hy : y < 2 := by simpa using hb
      apply hne
      interval_cases y
      · rfl
      · rfl

/-! ### The claim theorems -/

/-- Claim C1: for every graph (square adjacency matrix with at least one
vertex; edge weights are non-negative by construction, a zero cell meaning
"no edge") and every vertex `v` reachable from the source `0`, after
`dijkstra` returns, the distance table holds at `v` exactly the minimum,
over all source-to-`v` paths, of the summed edge weights. -/
theorem claim_C1_shortest_distance (m : List (List Nat)) (hsq : Square m)
    (h0 : 0 < m.length) (v : Nat) (hv : Reachable m v) :
    ∃ s d, dijkstra m (initDV m.length) = some s ∧
      s.dist.getD v none = some d ∧ IsLeast (pathWeights m v) d := by
  obtain ⟨s, hs⟩ := dijkstra_terminates (initDV m.length)
  obtain ⟨hinv, hheap⟩ := dijkstra_inv hsq h0 hs
  obtain ⟨d, hd, hleast⟩ := final_settled hinv hheap hv
  exact ⟨s, d, hs, hd, hleast⟩

theorem claim_C1_witness :
    ∃ s d, dijkstra [[0, 1], [0, 0]] (initDV 2) = some s ∧
      s.dist.getD 1 none = some d ∧ IsLeast (pathWeights [[0, 1], [0, 0]] 1) d :=
  claim_C1_shortest_distance [[0, 1], [0, 0]] (by decide) (by decide) 1
    ⟨[0, 1], List.chain'_pair.mpr (by decide), rfl, rfl⟩

/-- Claim C2: for every finite graph (any adjacency matrix, self-loops and
stale never-deleted frontier entries included) and every starting distance
vector, the main relaxation loop terminates within the explicit fuel bound
and its Frontier (heap) is empty on return. -/
theorem claim_C2_loop_terminates (m : List (List Nat)) (dv : List (Option Nat)) :
    ∃ s', dijkstra m dv = some s' ∧ s'.heap = [] := by
  obtain ⟨s', hs'⟩ := dijkstra_terminates dv
  exact ⟨s', hs', loopFuel_heap_nil (fuelBound m) _ _ hs'⟩

/-- Claim C3 (code evaluated at the failing input): on the cyclic
predecessor table `previous = [1, 0]` with target `0` (and `V = 2`), the
reconstruction walk is still inside the loop after every number of steps —
after `k` steps the current vertex is `k % 2` — so it never exits and never
raises any error; in particular it does not stop after `V` steps, contrary
to the claimed `InvalidState` check, which does not exist in the code. -/
theorem claim_C3_walk_never_exits :
    ∀ k : Nat, walkState [some 1, some 0] 0 k = some (k % 2) := by
  intro k
  induction k with
  | zero => rfl
  | succ k ih =>
    have hs : walkState [some 1, some 0] 0 (k + 1) =
        match walkState [some 1, some 0] 0 k with
        | none => none
        | some cur => [some 1, some 0].getD cur none := rfl
    rw [hs, ih]
    rcases Nat.mod_two_eq_zero_or_one k with h | h
    · rw [h]
      have h2 : (k + 1) % 2 = 1 := by omega
      rw [h2]
      rfl
    · rw [h]
      have h2 : (k + 1) % 2 = 0 := by omega
      rw [h2]
      rfl

/-- Claim C4 counterexample: running `dijkstra` twice in succession (the
second run receives the module-level distance vector as the first run left
it) yields a different predecessor table on the second run, refuting the
claimed identity of the Predecessor tables. -/
theorem claim_C4_counterexample :
    ((dijkstra [[0, 1], [0, 0]] (initDV 2)).bind
        fun s1 => dijkstra [[0, 1], [0, 0]] s1.dist).map DState.prev ≠
      (dijkstra [[0, 1], [0, 0]] (initDV 2)).map DState.prev := by decide

/-- Claim C4 (amended): running `dijkstra` twice in succession yields an
identical Distance table on the second run — but the second run leaves its
(freshly created) Predecessor table entirely `none`, because no relaxation
fires against the already-final shared distance vector. -/
theorem claim_C4_amended_idempotent_distances (m : List (List Nat)) (s1 s2 : DState)
    (hsq : Square m) (h0 : 0 < m.length)
    (h1 : dijkstra m (initDV m.length) = some s1)
    (h2 : dijkstra m s1.dist = some s2) :
    s2.dist = s1.dist ∧ s2.prev = List.replicate m.length none := by
  obtain ⟨hinv, hheap⟩ := dijkstra_inv hsq h0 h1
  have hLT := lowerTable_of_final hinv hheap
  refine loopFuel_frozen hLT (fuelBound m)
    ⟨s1.dist, List.replicate m.length none, [], [(0, 0)]⟩ s2 rfl ?_ h2
  intro e he
  simp at he
  rw [he]
  show (0 : Nat) ∈ pathWeights m 0
  exact pathWeights_source

theorem claim_C4_amended_witness :
    (⟨[some 0, some 1], [none, none], [0], []⟩ : DState).dist =
        (⟨[some 0, some 1], [none, some 0], [1, 0], []⟩ : DState).dist ∧
      (⟨[some 0, some 1], [none, none], [0], []⟩ : DState).prev =
        List.replicate 2 none :=
  claim_C4_amended_idempotent_distances [[0, 1], [0, 0]]
    ⟨[some 0, some 1], [none, some 0], [1, 0], []⟩
    ⟨[some 0, some 1], [none, none], [0], []⟩
    (by decide) (by decide) (by decide) (by decide)

/-- Claim C5 counterexample: the graph is an adjacency matrix, so two
parallel edges `(0,1,5)` and `(0,1,2)` can never coexist — no matrix has
both triples in its edge list. -/
theorem claim_C5_counterexample :
    ¬ ∃ m : List (List Nat),
      ((0 : Nat), (1 : Nat), (5 : Nat)) ∈ edges m ∧
        ((0 : Nat), (1 : Nat), (2 : Nat)) ∈ edges m := by
  rintro ⟨m, h5, h2⟩
  have hw5 := edges_weight h5
  have hw2 := edges_weight h2
  omega

/-- Claim C5 (amended): the adjacency-matrix representation admits at most
one directed edge per ordered vertex pair (the edge weight is a function of
the pair), and for the single edge `(0,1,2)` — the matrix whose cell `(0,1)`
is `2` — `dijkstra` yields `distance[1] = 2`. -/
theorem claim_C5_amended_single_edge :
    (∀ (m : List (List Nat)) (w w' : Nat),
        (0, 1, w) ∈ edges m → (0, 1, w') ∈ edges m → w = w') ∧
      (dijkstra [[0, 2], [0, 0]] (initDV 2)).map DState.dist =
        some [some 0, some 2] := by
  constructor
  · intro m w w' h h'
    rw [edges_weight h, edges_weight h']
  · decide

theorem claim_C5_amended_witness :
    (2 : Nat) = 2 ∧
      (dijkstra [[0, 2], [0, 0]] (initDV 2)).map DState.dist =
        some [some 0, some 2] :=
  ⟨claim_C5_amended_single_edge.1 [[0, 2], [0, 0]] 2 2 (by decide) (by decide),
    claim_C5_amended_single_edge.2⟩

/-- Claim C6: for every vertex `v` with no path from the source, after
`dijkstra` returns the distance table still holds the infinite sentinel at
`v`, and path reconstruction for `v` reports the vertex unreachable (a
legitimate outcome, not an error). -/
theorem claim_C6_unreachable_sentinel (m : List (List Nat)) (hsq : Square m)
    (h0 : 0 < m.length) (v : Nat) (hnr : ¬ Reachable m v) (fuel : Nat) :
    ∃ s, dijkstra m (initDV m.length) = some s ∧ s.dist.getD v none = none ∧
      reconstruct s.dist s.prev fuel v = some RecResult.unreachable := by
  obtain ⟨s, hs⟩ := dijkstra_terminates (initDV m.length)
  obtain ⟨hinv, _⟩ := dijkstra_inv hsq h0 hs
  have hnone : s.dist.getD v none = none := by
    cases hd : s.dist.getD v none with
    | none => rfl
    | some d =>
      obtain ⟨l, hw, _⟩ := hinv.haspath v d hd
      exact absurd ⟨l, hw⟩ hnr
  refine ⟨s, hs, hnone, ?_⟩
  unfold reconstruct
  rw [if_pos hnone]

theorem claim_C6_witness :
    ∃ s, dijkstra [[0, 0], [0, 0]] (initDV 2) = some s ∧
      s.dist.getD 1 none = none ∧
      reconstruct s.dist s.prev 3 1 = some RecResult.unreachable :=
  claim_C6_unreachable_sentinel [[0, 0], [0, 0]] (by decide) (by decide) 1
    zeroM_unreachable 3

/-- Claim C7 (code evaluated at the failing input): the embedded `dijkstra`
takes no source argument at all — vertex `0` is hard-coded — and
unconditionally computes, mutating the distance table and visiting
vertices, with no `InvalidVertex` (or any other) error path in the code. -/
theorem claim_C7_no_source_validation :
    (dijkstra [[0, 1], [0, 0]] (initDV 2)).map DState.dist =
        some [some 0, some 1] ∧
      (dijkstra [[0, 1], [0, 0]] (initDV 2)).map DState.visited = some [1, 0] := by
  decide

/-- Claim C8: the distance table is monotone over time — a single
relaxation pass, and the whole loop, leave every entry either unchanged or
strictly decreased (never increased). -/
theorem claim_C8_monotone :
    (∀ (m : List (List Nat)) (u du : Nat) (ns : List Nat) (s : DState) (v : Nat),
        (relaxList m u du ns s).dist.getD v none = s.dist.getD v none ∨
          sltD ((relaxList m u du ns s).dist.getD v none) (s.dist.getD v none)) ∧
      ∀ (m : List (List Nat)) (fuel : Nat) (s s' : DState),
        loopFuel m fuel s = some s' → ∀ v,
          s'.dist.getD v none = s.dist.getD v none ∨
            sltD (s'.dist.getD v none) (s.dist.getD v none) :=
  ⟨fun _ _ _ ns s v => relaxList_eqslt ns s v,
    fun _ fuel s s' h v => loopFuel_eqslt fuel s s' h v⟩

theorem claim_C8_witness :
    (⟨[some 0, some 1], [none, some 0], [1, 0], []⟩ : DState).dist.getD 1 none =
        (⟨initDV 2, List.replicate 2 none, [], [(0, 0)]⟩ : DState).dist.getD 1 none ∨
      sltD ((⟨[some 0, some 1], [none, some 0], [1, 0], []⟩ : DState).dist.getD 1 none)
        ((⟨initDV 2, List.replicate 2 none, [], [(0, 0)]⟩ : DState).dist.getD 1 none) :=
  claim_C8_monotone.2 [[0, 1], [0, 0]] (fuelBound [[0, 1], [0, 0]])
    ⟨initDV 2, List.replicate 2 none, [], [(0, 0)]⟩
    ⟨[some 0, some 1], [none, some 0], [1, 0], []⟩ (by decide) 1

/-- Claim C9 counterexample: the distance vector is module-level shared
state — running `dijkstra` on the table left by a previous run produces a
different result than the first (fresh) run, so a run does observe state
left behind by its predecessor, and the first run's mutation of the table
persists. -/
theorem claim_C9_counterexample :
    ((dijkstra [[0, 1], [0, 0]] (initDV 2)).bind
        fun s1 => dijkstra [[0, 1], [0, 0]] s1.dist) ≠
        dijkstra [[0, 1], [0, 0]] (initDV 2) ∧
      (dijkstra [[0, 1], [0, 0]] (initDV 2)).map DState.dist ≠ some (initDV 2) := by
  decide

/-- Claim C9 (amended): the Predecessor table, Frontier and Visited set are
created fresh inside each invocation, but the Distance table is the
caller-supplied module-level vector: the run never re-initializes it, and
only ever lowers its entries in place (the output is pointwise at most the
input), so its mutations are observed by the next run. -/
theorem claim_C9_amended_shared_distance_table (m : List (List Nat))
    (dv : List (Option Nat)) (s' : DState) (h : dijkstra m dv = some s') :
    ∀ v, leD (s'.dist.getD v none) (dv.getD v none) := by
  intro v
  exact leD_of_eqslt
    (loopFuel_eqslt (fuelBound m)
      ⟨dv, List.replicate m.length none, [], [(0, 0)]⟩ s' h v)

theorem claim_C9_amended_witness :
    leD ((⟨[some 0, some 1], [none, some 0], [1, 0], []⟩ : DState).dist.getD 1 none)
      ((initDV 2).getD 1 none) :=
  claim_C9_amended_shared_distance_table [[0, 1], [0, 0]] (initDV 2)
    ⟨[some 0, some 1], [none, some 0], [1, 0], []⟩ (by decide) 1

/-- Claim C10: an edge from `i` to `j` exists exactly when the matrix cell
is non-zero — `distance` returns `none` precisely on zero cells, and
`neighbours` lists `j` precisely when `j` is in range and the cell is
non-zero — so a weight-`0` edge is indistinguishable from an absent edge. -/
theorem claim_C10_zero_means_no_edge :
    (∀ (m : List (List Nat)) (i j : Nat), distance m i j = none ↔ entry m i j = 0) ∧
      ∀ (m : List (List Nat)) (i j : Nat),
        j ∈ neighbours m i ↔ j < m.length ∧ entry m i j ≠ 0 := by
  constructor
  · intro m i j
    unfold distance
    split
    · rename_i h
      simp [h]
    · rename_i h
      simp at h
      simp [h]
  · intro m i j
    exact mem_neighbours

end DijkstraNB
